import Mathlib

/-!
# openslides-performance: the `connect` command and the HTTP client helpers

A shallow embedding of `cmd/connect.go` (the connection swarm: connect/retry
loop, scan loop, aggregation loop) and of `client/client.go` (`checkStatus`,
`decodeUserID`), followed by the properties proved about them.

Conventions of the embedding:
* the counters `tries` and `changeID` are Go `int`s (64 bits); `tries` never exceeds
  101 and `changeID` is incremented once per scanned line, so neither reaches `2^63`
  in a run, and both are modelled as `Nat` without wrap-around;
* a response body is the finite sequence of lines the reader hands to the
  `bufio.Scanner`, together with the way the reader ends;
* goroutines are interleaved by an explicit schedule of actions;
* the variable `err` that the retry loop assigns and tests (connect.go:65-66) is the
  one declared at connect.go:45 and is shared by all worker goroutines; the
  environment of a worker says, for each attempt, whether another worker stored a
  value in it between the assignment and the test.
-/

namespace Connect

/-! ## Step labels -/

/-- The message `fmt.Sprintf("Change %d", changeID)` of connect.go:86. -/
def sprintfChange (changeID : Nat) : String :=
  "Change " ++ toString changeID

/-- The decimal digits of a number, most significant first: the digits that `%d` prints. -/
def decDigits (n : Nat) : List Char :=
  if n < 10 then [Nat.digitChar n] else decDigits (n / 10) ++ [Nat.digitChar (n % 10)]
termination_by n
decreasing_by omega

/-- The labels `Change (c+1)`, ..., `Change (c+m)`. -/
def labelsFrom (c m : Nat) : List String :=
  (List.range m).map (fun j => sprintfChange (c + j + 1))

/-! ## The aggregation loop body (connect.go:105-116) -/

/-- A progress bar of the `mpb` container: the label given to `decor.Name`, the total
given to `AddBar`, and the number of `Increment` calls it received. -/
structure Bar where
  name : String
  total : Nat
  current : Nat
  deriving DecidableEq, Repr

/-- The lookup `cidToBar[msg]`. The rows are kept in the order of the `AddBar` calls;
the map entry of a label is the row that carries it. -/
def lookupBar (bars : List Bar) (msg : String) : Option Bar :=
  bars.find? (fun b => decide (b.name = msg))

/-- The call `bar.Increment()` on the row `cidToBar[msg]`. -/
def incrementBar (msg : String) : List Bar → List Bar
  | [] => []
  | b :: bs =>
    if b.name = msg then { b with current := b.current + 1 } :: bs
    else b :: incrementBar msg bs

/-- One pass through `case msg := <-received` (connect.go:105-116): look the label up,
add a bar after the existing ones when it is missing, then increment the bar. -/
def aggregate (connectionCount : Nat) (bars : List Bar) (msg : String) : List Bar :=
  match lookupBar bars msg with
  | some _ => incrementBar msg bars
  | none => incrementBar msg (bars ++ [{ name := msg, total := connectionCount, current := 0 }])

/-- The count shown for a label: the counter of its row, and zero when it has no row. -/
def count (bars : List Bar) (msg : String) : Nat :=
  match lookupBar bars msg with
  | some b => b.current
  | none => 0

/-- Whether a label has a row. -/
def hasRow (bars : List Bar) (msg : String) : Bool :=
  (lookupBar bars msg).isSome

/-! ## The scanner (connect.go:79-81) -/

/-- A line of the response body, without its newline. -/
abbrev Line := List UInt8

/-- The scanner limit `16*MB` with `MB = 1 << 20` (connect.go:80-81). -/
def maxTokenSize : Nat := 16 * 2 ^ 20

/-- A line the scanner cannot return: it does not fit in a buffer of `maxTokenSize`
bytes (a token has to be shorter than the limit). -/
def tooLong (l : Line) : Bool :=
  decide (maxTokenSize ≤ l.length)

/-- A line of `maxTokenSize + 1` bytes. -/
def oversizedLine : Line := List.replicate (maxTokenSize + 1) 0

/-- How reading the body ends after its last line. -/
inductive ReadEnd where
  | eof
  | canceled
  | failure
  deriving DecidableEq, Repr

/-- A response body: the lines in the order they arrive and the end of the stream. -/
structure Body where
  lines : List Line
  fin : ReadEnd
  deriving DecidableEq, Repr

/-- The value of `scanner.Err()` when it is not nil. -/
inductive ScanErr where
  | tooLong
  | canceled
  | read
  deriving DecidableEq, Repr

/-- One call of `scanner.Scan()`: the token and the unread lines when it returns true. -/
def scan : List Line → Option (Line × List Line)
  | [] => none
  | l :: ls => if tooLong l then none else some (l, ls)

/-- The value of `scanner.Err()` once `Scan` has returned false. -/
def scanErr (fin : ReadEnd) : List Line → Option ScanErr
  | [] =>
    match fin with
    | .eof => none
    | .canceled => some .canceled
    | .failure => some .read
  | _ :: _ => some .tooLong

/-- How a worker goroutine ends. -/
inductive Exit where
  | closed
  | aborted
  | failed
  | gaveUp
  | panicked
  deriving DecidableEq, Repr

/-- The code after the scan loop (connect.go:89-95): a nil error ends the worker
silently, `context.Canceled` too, every other error is logged. -/
def exitOf : Option ScanErr → Exit
  | none => .closed
  | some .canceled => .aborted
  | some .tooLong => .failed
  | some .read => .failed

/-- The scan loop `for scanner.Scan() { changeID++; received <- ... }` followed by the
error check (connect.go:83-95), started with the given value of `changeID`. -/
def scanLoop (fin : ReadEnd) : Nat → List Line → List String × Exit
  | _, [] => ([], exitOf (scanErr fin []))
  | changeID, l :: ls =>
    if tooLong l then ([], exitOf (scanErr fin (l :: ls)))
    else
      let r := scanLoop fin (changeID + 1) ls
      (sprintfChange (changeID + 1) :: r.1, r.2)

/-- The tokens the scanner yields for a body: the lines before the first one it rejects. -/
def tokens (lines : List Line) : List Line :=
  lines.takeWhile (fun l => !tooLong l)

/-! ## The connect/retry loop (connect.go:59-77) -/

/-- The moment at which the context is cancelled, as seen from one worker's retry loop:
never, while the call of `keepOpen` made with the given value of `tries` is in flight,
or during the `time.Sleep` that follows that call. -/
inductive CancelAt where
  | never
  | duringAttempt (tries : Nat)
  | duringSleep (tries : Nat)
  deriving DecidableEq, Repr

/-- What the world does to one worker while it connects. `keepOpen` is the result of the
call made with each value of `tries`: a body when the call returns `(resp.Body, nil)`,
nothing when it returns `(nil, err)`. `cancelAt` is the moment of cancellation.
`otherErr` is the interference on the shared variable `err`: when another worker
goroutine assigns `err` after this worker's assignment at connect.go:65 and before its
test at connect.go:66, the entry says whether the stored value is non-nil (`some true`)
or nil (`some false`); it is `none` when the worker tests the value it stored itself. -/
structure ConnectEnv where
  keepOpen : Nat → Option Body
  cancelAt : CancelAt
  otherErr : Nat → Option Bool

/-- The test `err != nil` of connect.go:66 after the call made with the given value of
`tries`: on the value another worker stored in the shared variable, if any, and on the
error of the worker's own call otherwise. -/
def errNotNil (env : ConnectEnv) (tries : Nat) : Bool :=
  match env.otherErr tries with
  | some b => b
  | none => (env.keepOpen tries).isNone

/-- The test `ctx.Err() != nil` of connect.go:67, evaluated after the call of `keepOpen`
made with the given value of `tries` has returned. -/
def ctxErr : CancelAt → Nat → Bool
  | .never, _ => false
  | .duringAttempt k, tries => decide (k ≤ tries)
  | .duringSleep k, tries => decide (k < tries)

/-- What can be observed of the retry loop, in the order it happens. -/
inductive Event where
  | keepOpenCall (tries : Nat)
  | cancelled
  | logged (tries : Nat)
  | slept
  deriving DecidableEq, Repr

/-- The result of the retry loop: `break` with a body to stream, `break` with `r == nil`
(the worker's call failed and the test read a nil `err`), the return of connect.go:62 or
the return of connect.go:68. -/
inductive Connected where
  | stream (r : Body)
  | nilBody
  | gaveUp
  | aborted
  deriving DecidableEq, Repr

/-- The cancellation, when it falls into the given phase of the loop. -/
def cancelMark (c phase : CancelAt) : List Event :=
  if c = phase then [.cancelled] else []

/-- The loop `for tries := 0; ; tries++` of connect.go:60-76, entered with the given
value of `tries`. -/
def connectLoop (env : ConnectEnv) (tries : Nat) : List Event × Connected :=
  if tries > 100 then ([], .gaveUp)
  else
    let call := Event.keepOpenCall tries :: cancelMark env.cancelAt (.duringAttempt tries)
    if errNotNil env tries then
      if ctxErr env.cancelAt tries then (call, .aborted)
      else
        let wait := [Event.logged tries, Event.slept] ++
          cancelMark env.cancelAt (.duringSleep tries)
        let next := connectLoop env (tries + 1)
        (call ++ wait ++ next.1, next.2)
    else
      match env.keepOpen tries with
      | some r => (call, .stream r)
      | none => (call, .nilBody)
termination_by 101 - tries
decreasing_by omega

/-- The number of `keepOpen` calls among the events. -/
def attempts : List Event → Nat
  | [] => 0
  | .keepOpenCall _ :: es => attempts es + 1
  | _ :: es => attempts es

/-- The number of `keepOpen` calls that start after the context was cancelled. -/
def callsAfterCancel : List Event → Nat
  | [] => 0
  | .cancelled :: es => attempts es
  | _ :: es => callsAfterCancel es

/-- One worker goroutine (connect.go:58-96) run to its end, with every send on
`received` taken by the receiver. When the loop is left with `r == nil`, the statement
`defer r.Close()` of connect.go:77 panics. -/
def worker (env : ConnectEnv) : List Event × List String × Exit :=
  match connectLoop env 0 with
  | (evs, .stream r) => (evs, scanLoop r.fin 0 r.lines)
  | (evs, .nilBody) => (evs, [], .panicked)
  | (evs, .gaveUp) => (evs, [], .gaveUp)
  | (evs, .aborted) => (evs, [], .aborted)

/-! ## The swarm: worker goroutines, the channel `received`, the aggregation loop -/

/-- The state of one worker goroutine between two of its steps. `sending` holds the
message of a send `received <- msg` that has not completed yet. -/
structure Worker where
  changeID : Nat
  lines : List Line
  fin : ReadEnd
  sending : Option String
  exit : Option Exit
  deriving DecidableEq, Repr

/-- One step of a worker next to the channel buffer (capacity one, connect.go:55):
a pending send completes when the buffer is free; otherwise the worker calls
`scanner.Scan()` and either increments `changeID` and starts the send, or leaves the
loop and returns. -/
def Worker.step (w : Worker) (received : Option String) : Worker × Option String :=
  match w.exit with
  | some _ => (w, received)
  | none =>
    match w.sending with
    | some msg =>
      match received with
      | none => ({ w with sending := none }, some msg)
      | some _ => (w, received)
    | none =>
      match scan w.lines with
      | some (_, rest) =>
        ({ w with changeID := w.changeID + 1, lines := rest,
                  sending := some (sprintfChange (w.changeID + 1)) }, received)
      | none => ({ w with exit := some (exitOf (scanErr w.fin w.lines)) }, received)

/-- The state of the command after the workers were started. -/
structure Swarm where
  workers : List Worker
  received : Option String
  bars : List Bar
  ctxDone : Bool
  returned : Bool
  deriving DecidableEq, Repr

/-- The scheduler's choices: a step of worker `i`, the `select` case
`msg := <-received`, the `select` case `<-ctx.Done()`, and the interrupt that cancels
the context. -/
inductive Action where
  | worker (i : Nat)
  | receive
  | done
  | cancel
  deriving DecidableEq, Repr

/-- One scheduled action. An action that is not enabled leaves the state unchanged. -/
def Swarm.step (s : Swarm) : Action → Swarm
  | .worker i =>
    match s.workers[i]? with
    | none => s
    | some w =>
      let r := w.step s.received
      { s with workers := s.workers.set i r.1, received := r.2 }
  | .receive =>
    if s.returned then s
    else
      match s.received with
      | none => s
      | some msg =>
        { s with received := none, bars := aggregate s.workers.length s.bars msg }
  | .done =>
    if s.ctxDone then { s with returned := true } else s
  | .cancel => { s with ctxDone := true }

/-- A run: the actions of a schedule, one after the other. -/
def Swarm.run (s : Swarm) (sched : List Action) : Swarm :=
  sched.foldl Swarm.step s

/-- A worker as it enters the scan loop; a worker whose retry loop returned without a
connection has already ended. -/
def mkWorker : Option Body → Worker
  | some r => { changeID := 0, lines := r.lines, fin := r.fin, sending := none, exit := none }
  | none => { changeID := 0, lines := [], fin := .eof, sending := none, exit := some .gaveUp }

/-- The state after the `for i := 0; i < *connectionCount; i++` loop: one worker per
connection, an empty channel, no bars. -/
def Swarm.init (conns : List (Option Body)) : Swarm :=
  { workers := conns.map mkWorker, received := none, bars := [], ctxDone := false,
    returned := false }

/-- The number of lines a worker receives before its stream ends. -/
def lineCount : Option Body → Nat
  | some r => (tokens r.lines).length
  | none => 0

/-- Nothing is left to do for the workers and the channel is empty: every worker has
returned and every message has been taken by the aggregation loop. -/
def Swarm.drained (s : Swarm) : Bool :=
  s.workers.all (fun w => w.exit.isSome) && s.received.isNone

/-- A schedule in which the context is never cancelled. -/
def noCancel (sched : List Action) : Bool :=
  sched.all (fun a => decide (a ≠ Action.cancel))

/-! ## Bookkeeping for the swarm -/

/-- The number of messages with the given label that a worker has produced so far: it
has formatted `Change 1`, ..., `Change changeID`. -/
def emitted (w : Worker) (msg : String) : Nat :=
  (labelsFrom 0 w.changeID).count msg

/-- The messages with the given label that a worker still holds in a pending send. -/
def pendingCount (w : Worker) (msg : String) : Nat :=
  if w.sending = some msg then 1 else 0

/-- The messages with the given label in the channel buffer. -/
def chanCount (received : Option String) (msg : String) : Nat :=
  if received = some msg then 1 else 0

/-- The lines a worker will have scanned when its stream ends. -/
def finalCount (w : Worker) : Nat :=
  w.changeID + (tokens w.lines).length

/-- A worker that has returned has no pending send and no token left to scan. -/
def settled (w : Worker) : Bool :=
  w.exit.isNone || (w.sending.isNone && (tokens w.lines).isEmpty)

/-- Messages are conserved: those counted on the bars, the one in the channel and the
pending sends are exactly the messages the workers produced. -/
def Balanced (s : Swarm) : Prop :=
  ∀ msg : String,
    count s.bars msg + chanCount s.received msg + (s.workers.map (pendingCount · msg)).sum
      = (s.workers.map (emitted · msg)).sum

/-- Every label that has a row has been counted at least once. -/
def RowsCounted (bars : List Bar) : Prop :=
  ∀ msg : String, hasRow bars msg = true → 1 ≤ count bars msg

/-- Whether a worker with `m` lines produces the label of step `k`. -/
def reaches (k m : Nat) : Bool :=
  decide (1 ≤ k) && decide (k ≤ m)

/-- Scenario A: three workers, each streams the two lines `x` and `y`. -/
def scenarioA : List (Option Body) :=
  [some ⟨[[120], [121]], .eof⟩, some ⟨[[120], [121]], .eof⟩, some ⟨[[120], [121]], .eof⟩]

/-- A complete run of scenario A: the workers scan and send in turn, the aggregation loop
takes each message as soon as it is in the channel. -/
def scheduleA : List Action :=
  [.worker 0, .worker 1, .worker 2, .worker 0, .receive, .worker 1, .receive, .worker 2,
   .receive, .worker 2, .worker 1, .worker 0, .worker 2, .receive, .worker 0, .receive,
   .worker 1, .receive, .worker 0, .worker 1, .worker 2]

/-- Scenario C: one worker gets a read error after its first line, the other two stream
three lines each. -/
def scenarioC : List (Option Body) :=
  [some ⟨[[120]], .failure⟩, some ⟨[[120], [121], [122]], .eof⟩,
   some ⟨[[120], [121], [122]], .eof⟩]

/-- A complete run of scenario C. -/
def scheduleC : List Action :=
  [.worker 1, .worker 0, .worker 1, .receive, .worker 0, .receive, .worker 0, .worker 2,
   .worker 2, .receive, .worker 1, .worker 1, .receive, .worker 2, .worker 2, .receive,
   .worker 2, .worker 2, .receive, .worker 1, .worker 1, .receive, .worker 1, .worker 2]

end Connect

/-! # `client/client.go` -/

namespace Client

/-- A Go `error` value, given by its text. -/
structure GoError where
  text : String
  deriving DecidableEq, Repr

/-- What a Go function does: it returns a value, or it panics. -/
inductive Outcome (α : Type) where
  | ret (a : α)
  | panic
  deriving DecidableEq, Repr

/-- The fields of `http.Response` that `checkStatus` reads: `Status`, `StatusCode`, and
the bytes `io.ReadAll(resp.Body)` yields, absent when reading fails. -/
structure Response where
  status : String
  statusCode : Int
  body : Option String
  deriving DecidableEq, Repr

/-- The text printed for the body in the error of `checkStatus` (client.go:140-143). -/
def bodyText (r : Response) : String :=
  match r.body with
  | some b => b
  | none => "[can not read body]"

/-- The function `checkStatus` (client.go:134-148) on a pair `(resp, err)`; a nil
pointer is `none`. Reading `resp.StatusCode` of a nil response panics. -/
def checkStatus (resp : Option Response) (err : Option GoError) :
    Outcome (Option Response × Option GoError) :=
  match err with
  | some e => .ret (none, some e)
  | none =>
    match resp with
    | none => .panic
    | some r =>
      if r.statusCode < 200 ∨ r.statusCode > 299 then
        .ret (none, some ⟨"got status " ++ r.status ++ ": " ++ bodyText r⟩)
      else .ret (some r, none)

/-- The pieces of a text between the occurrences of a separator character. -/
def splitOn (sep : Char) : List Char → List (List Char)
  | [] => [[]]
  | c :: cs =>
    if c = sep then [] :: splitOn sep cs
    else
      match splitOn sep cs with
      | [] => [[c]]
      | p :: ps => (c :: p) :: ps

/-- The call `strings.Split(token, ".")` (client.go:110). -/
def stringsSplit (token : String) : List String :=
  (splitOn '.' token.data).map String.mk

/-- The errors `decodeUserID` builds with `fmt.Errorf` around a cause (client.go:113
and client.go:120). -/
inductive DecodeError where
  | jwtToken (part : String) (cause : GoError)
  | userID (cause : GoError)
  deriving DecidableEq, Repr

/-- The function `decodeUserID` (client.go:109-124). The two library calls
`base64.RawStdEncoding.DecodeString` and `json.Unmarshal` into the struct with the field
`userId` are parameters. The index expression `parts[1]` panics when out of range. -/
def decodeUserID (decodeString : String → Except GoError (List UInt8))
    (unmarshal : List UInt8 → Except GoError Int) (token : String) :
    Outcome (Int × Option DecodeError) :=
  let parts := stringsSplit token
  match parts[1]? with
  | none => .panic
  | some part =>
    match decodeString part with
    | .error e => .ret (0, some (.jwtToken part e))
    | .ok encoded =>
      match unmarshal encoded with
      | .error e => .ret (0, some (.userID e))
      | .ok id => .ret (id, none)

/-- The call `resp.Header.Get("authentication")` (client.go:89): the value of the header,
or the empty string when the response has no such header. -/
def headerGet (authentication : Option String) : String :=
  match authentication with
  | some v => v
  | none => ""

/-- The end of `Login` (client.go:89-103): the token is taken from the header and given
to `decodeUserID`; the result is the error `Login` returns, if any. -/
def loginDecode (decodeString : String → Except GoError (List UInt8))
    (unmarshal : List UInt8 → Except GoError Int) (authentication : Option String) :
    Outcome (Option DecodeError) :=
  match decodeUserID decodeString unmarshal (headerGet authentication) with
  | .panic => .panic
  | .ret (_, some e) => .ret (some e)
  | .ret (_, none) => .ret none

end Client

/-! # Properties -/

namespace Connect

/-! ## Step labels are distinct -/

theorem digitChar_inj (a b : Nat) (ha : a < 10) (hb : b < 10)
    (h : Nat.digitChar a = Nat.digitChar b) : a = b := by
  interval_cases a <;> interval_cases b <;> first | rfl | (exact absurd h (by decide))

theorem decDigits_ne_nil (n : Nat) : decDigits n ≠ [] := by
  rw [decDigits]; split <;> simp

theorem decDigits_inj : ∀ (n m : Nat), decDigits n = decDigits m → n = m := by
  intro n
  induction n using Nat.strong_induction_on with
  | _ n ih =>
    intro m h
    rw [decDigits] at h
    rw [decDigits.eq_1 m] at h
    by_cases hn : n < 10 <;> by_cases hm : m < 10
    · simp only [hn, hm, if_true] at h
      exact digitChar_inj n m hn hm (by simpa using h)
    · simp only [hn, hm, if_true, if_false] at h
      have := congrArg List.length h
      have h2 := List.length_pos.mpr (decDigits_ne_nil (m / 10))
      simp only [List.length_append, List.length_singleton, List.length_cons, List.length_nil] at this
      omega
    · simp only [hn, hm, if_true, if_false] at h
      have := congrArg List.length h
      have h2 := List.length_pos.mpr (decDigits_ne_nil (n / 10))
      simp only [List.length_append, List.length_singleton, List.length_cons, List.length_nil] at this
      omega
    · simp only [hn, hm, if_false] at h
      have h1 := List.append_inj' h rfl
      have e1 := ih (n / 10) (by omega) (m / 10) h1.1
      have e2 := digitChar_inj (n % 10) (m % 10) (Nat.mod_lt _ (by decide)) (Nat.mod_lt _ (by decide))
        (by simpa using h1.2)
      omega

theorem toDigitsCore_eq : ∀ (fuel n : Nat) (ds : List Char), n < fuel →
    Nat.toDigitsCore 10 fuel n ds = decDigits n ++ ds := by
  intro fuel
  induction fuel with
  | zero => intro n ds h; omega
  | succ fuel ih =>
    intro n ds h
    rw [Nat.toDigitsCore, decDigits]
    by_cases h0 : n / 10 = 0
    · have hn : n < 10 := by omega
      simp [h0, hn, Nat.mod_eq_of_lt hn]
    · have hn : ¬ n < 10 := by omega
      simp only [h0, hn, if_false]
      rw [ih (n / 10) _ (by omega)]
      simp

theorem sprintfChange_inj (a b : Nat) (h : sprintfChange a = sprintfChange b) : a = b := by
  unfold sprintfChange at h
  have h1 : ("Change " ++ toString a).data = ("Change " ++ toString b).data := by rw [h]
  simp only [String.data_append] at h1
  have h2 := List.append_cancel_left h1
  have h3 : Nat.toDigits 10 a = Nat.toDigits 10 b := by
    simpa [toString, Nat.repr, List.asString] using h2
  unfold Nat.toDigits at h3
  rw [toDigitsCore_eq _ _ _ (by omega), toDigitsCore_eq _ _ _ (by omega)] at h3
  exact decDigits_inj a b (by simpa using h3)

/-! ## The aggregation step -/

theorem lookupBar_cons (b : Bar) (bs : List Bar) (msg : String) :
    lookupBar (b :: bs) msg = if b.name = msg then some b else lookupBar bs msg := by
  unfold lookupBar
  by_cases h : b.name = msg <;> simp [List.find?, h]

theorem count_cons (b : Bar) (bs : List Bar) (msg : String) :
    count (b :: bs) msg = if b.name = msg then b.current else count bs msg := by
  unfold count
  rw [lookupBar_cons]
  by_cases h : b.name = msg <;> simp [h]

theorem count_incrementBar (s : String) (bars : List Bar) (t : String)
    (h : hasRow bars s = true) :
    count (incrementBar s bars) t = count bars t + (if t = s then 1 else 0) := by
  induction bars with
  | nil => simp [hasRow, lookupBar] at h
  | cons b bs ih =>
    unfold incrementBar
    by_cases hb : b.name = s
    · simp only [hb, if_true, count_cons]
      by_cases ht : s = t
      · subst ht; simp
      · have ht2 : ¬ t = s := fun e => ht e.symm
        simp [ht, ht2]
    · simp only [hb, if_false, count_cons]
      have h2 : hasRow bs s = true := by
        simpa [hasRow, lookupBar_cons, hb] using h
      by_cases ht : b.name = t
      · have ht2 : ¬ t = s := fun e => hb (ht.trans e)
        simp [ht, ht2]
      · simp [ht, ih h2]

theorem names_incrementBar (s : String) (bars : List Bar) :
    (incrementBar s bars).map Bar.name = bars.map Bar.name := by
  induction bars with
  | nil => rfl
  | cons b bs ih =>
    unfold incrementBar
    by_cases hb : b.name = s <;> simp [hb, ih]

theorem incrementBar_append_new (s : String) (n : Nat) (bars : List Bar)
    (h : hasRow bars s = false) :
    incrementBar s (bars ++ [{ name := s, total := n, current := 0 }])
      = bars ++ [{ name := s, total := n, current := 1 }] := by
  induction bars with
  | nil => simp [incrementBar]
  | cons b bs ih =>
    have hb : ¬ b.name = s := by
      intro e; simp [hasRow, lookupBar_cons, e] at h
    have h2 : hasRow bs s = false := by
      simpa [hasRow, lookupBar_cons, hb] using h
    simp [incrementBar, hb, ih h2]

theorem lookupBar_append (as bs : List Bar) (msg : String) :
    lookupBar (as ++ bs) msg = (lookupBar as msg).or (lookupBar bs msg) := by
  induction as with
  | nil => simp [lookupBar]
  | cons a as ih =>
    simp only [List.cons_append, lookupBar_cons]
    by_cases h : a.name = msg <;> simp [h, ih]

theorem count_append_new (s t : String) (n c : Nat) (bars : List Bar)
    (h : hasRow bars s = false) :
    count (bars ++ [{ name := s, total := n, current := c }]) t
      = count bars t + (if t = s then c else 0) := by
  unfold count
  rw [lookupBar_append]
  cases hl : lookupBar bars t with
  | some b =>
    have : ¬ t = s := by
      intro e; subst e; simp [hasRow, hl] at h
    simp [this]
  | none =>
    by_cases e : s = t
    · subst e; simp [lookupBar]
    · have e2 : ¬ t = s := fun x => e x.symm
      simp [lookupBar, e, e2]

theorem count_aggregate (n : Nat) (bars : List Bar) (s t : String) :
    count (aggregate n bars s) t = count bars t + (if t = s then 1 else 0) := by
  unfold aggregate
  cases hl : lookupBar bars s with
  | some b =>
    simp only
    exact count_incrementBar s bars t (by simp [hasRow, hl])
  | none =>
    simp only
    have hr : hasRow bars s = false := by simp [hasRow, hl]
    rw [incrementBar_append_new s n bars hr, count_append_new s t n 1 bars hr]

theorem names_aggregate (n : Nat) (bars : List Bar) (s : String) :
    (aggregate n bars s).map Bar.name
      = bars.map Bar.name ++ (if hasRow bars s then [] else [s]) := by
  unfold aggregate
  cases hl : lookupBar bars s with
  | some b => simp [names_incrementBar, hasRow, hl]
  | none =>
    have hr : hasRow bars s = false := by simp [hasRow, hl]
    simp only
    rw [incrementBar_append_new s n bars hr]
    simp [hr]

theorem count_step_mono (st : Swarm) (a : Action) (t : String) :
    count st.bars t ≤ count (st.step a).bars t := by
  cases a with
  | worker i =>
    simp only [Swarm.step]
    cases st.workers[i]? <;> simp
  | receive =>
    simp only [Swarm.step]
    split
    · exact Nat.le_refl _
    · cases st.received with
      | none => exact Nat.le_refl _
      | some msg => simp only [count_aggregate]; omega
  | done => simp only [Swarm.step]; split <;> exact Nat.le_refl _
  | cancel => exact Nat.le_refl _

theorem count_run_mono (sched : List Action) : ∀ (st : Swarm) (t : String),
    count st.bars t ≤ count (st.run sched).bars t := by
  induction sched with
  | nil => intro st t; exact Nat.le_refl _
  | cons a as ih =>
    intro st t
    exact Nat.le_trans (count_step_mono st a t) (ih (st.step a) t)

/-- C4: one pass of the aggregation loop over a message `s` adds exactly one to the
count of `s`; it adds a row for `s` exactly when `s` had none, after all existing rows,
and otherwise keeps the rows and their order; it leaves the count of every other label
unchanged; hence no count ever decreases during a run. -/
theorem aggregate_effect (n : Nat) (bars : List Bar) (s : String) :
    count (aggregate n bars s) s = count bars s + 1
    ∧ (hasRow bars s = false →
        aggregate n bars s = bars ++ [{ name := s, total := n, current := 1 }])
    ∧ (hasRow bars s = true →
        (aggregate n bars s).map Bar.name = bars.map Bar.name)
    ∧ ((aggregate n bars s).length = bars.length + 1 ↔ hasRow bars s = false)
    ∧ (∀ t : String, t ≠ s → count (aggregate n bars s) t = count bars t)
    ∧ (∀ (st : Swarm) (sched : List Action) (t : String),
        count st.bars t ≤ count (st.run sched).bars t) := by
  have hn := names_aggregate n bars s
  refine ⟨by simp [count_aggregate], ?_, ?_, ?_, ?_, ?_⟩
  · intro h
    unfold aggregate
    have hl : lookupBar bars s = none := by simpa [hasRow] using h
    simp only [hl]
    exact incrementBar_append_new s n bars h
  · intro h; simpa [h] using hn
  · have hlen := congrArg List.length hn
    simp only [List.length_map, List.length_append] at hlen
    cases hr : hasRow bars s <;> simp [hr] at hlen ⊢ <;> omega
  · intro t ht; simp [count_aggregate, ht]
  · intro st sched t; exact count_run_mono sched st t

theorem aggregate_effect_witness :
    ("Change 2" ≠ "Change 1" ∧ hasRow [⟨"Change 1", 3, 2⟩] "Change 2" = false)
    ∧ aggregate 3 [⟨"Change 1", 3, 2⟩] "Change 2" = [⟨"Change 1", 3, 2⟩, ⟨"Change 2", 3, 1⟩]
    ∧ count (aggregate 3 [⟨"Change 1", 3, 2⟩] "Change 1") "Change 2"
        = count [⟨"Change 1", 3, 2⟩] "Change 2" :=
  ⟨⟨by decide, by decide⟩,
   (aggregate_effect 3 [⟨"Change 1", 3, 2⟩] "Change 2").2.1 (by decide),
   (aggregate_effect 3 [⟨"Change 1", 3, 2⟩] "Change 1").2.2.2.2.1 "Change 2" (by decide)⟩

/-! ## The scan loop -/

theorem labelsFrom_succ (c m : Nat) :
    labelsFrom c (m + 1) = sprintfChange (c + 1) :: labelsFrom (c + 1) m := by
  unfold labelsFrom
  rw [List.range_succ_eq_map]
  simp only [List.map_cons, List.map_map, Nat.add_zero]
  congr 1
  apply List.map_congr_left
  intro j _
  simp only [Function.comp]
  congr 1
  omega

theorem tokens_cons (l : Line) (ls : List Line) :
    tokens (l :: ls) = if tooLong l then [] else l :: tokens ls := by
  unfold tokens
  cases h : tooLong l <;> simp [List.takeWhile, h]

theorem scanLoop_sent (fin : ReadEnd) (lines : List Line) : ∀ c : Nat,
    (scanLoop fin c lines).1 = labelsFrom c (tokens lines).length := by
  induction lines with
  | nil => intro c; simp [scanLoop, tokens, labelsFrom]
  | cons l ls ih =>
    intro c
    rw [tokens_cons]
    cases h : tooLong l
    · simp [scanLoop, h, ih, labelsFrom_succ]
    · simp [scanLoop, h, labelsFrom]

theorem labelsFrom_nodup (c m : Nat) : (labelsFrom c m).Nodup := by
  unfold labelsFrom
  apply List.Nodup.map _ (List.nodup_range m)
  intro a b h
  have := sprintfChange_inj _ _ h
  omega

theorem scanLoop_stops (fin : ReadEnd) (bad : Line) (post : List Line)
    (hbad : tooLong bad = true) : ∀ (pre : List Line) (c : Nat),
    (∀ l ∈ pre, tooLong l = false) →
    scanLoop fin c (pre ++ bad :: post) = (labelsFrom c pre.length, Exit.failed) := by
  intro pre
  induction pre with
  | nil => intro c _; simp [scanLoop, hbad, labelsFrom, scanErr, exitOf]
  | cons l ls ih =>
    intro c h
    have hl : tooLong l = false := h l (List.mem_cons_self _ _)
    have h2 : ∀ x ∈ ls, tooLong x = false := fun x hx => h x (List.mem_cons_of_mem _ hx)
    simp [scanLoop, hl, ih (c + 1) h2, labelsFrom_succ]

theorem example_connect :
    connectLoop ⟨fun _ => some ⟨[[120], [121]], .eof⟩, .never, fun _ => none⟩ 0
      = ([.keepOpenCall 0], .stream ⟨[[120], [121]], .eof⟩) := by
  rw [connectLoop]; simp [cancelMark, errNotNil]

/-- C2: a worker whose connection is established sends, for a body that yields `m`
lines, exactly the messages `Change 1`, `Change 2`, ..., `Change m`, in this order;
no message occurs twice. -/
theorem worker_sends_consecutive_labels (env : ConnectEnv) (evs : List Event) (r : Body)
    (h : connectLoop env 0 = (evs, Connected.stream r)) :
    (worker env).2.1
        = (List.range (tokens r.lines).length).map (fun j => sprintfChange (j + 1))
    ∧ (worker env).2.1.Nodup := by
  have hw : (worker env).2.1 = labelsFrom 0 (tokens r.lines).length := by
    unfold worker
    rw [h]
    exact scanLoop_sent r.fin r.lines 0
  refine ⟨?_, by rw [hw]; exact labelsFrom_nodup _ _⟩
  rw [hw]; simp [labelsFrom]

theorem worker_sends_consecutive_labels_witness :
    (worker ⟨fun _ => some ⟨[[120], [121]], .eof⟩, .never, fun _ => none⟩).2.1
        = (List.range (tokens [[120], [121]]).length).map (fun j => sprintfChange (j + 1))
    ∧ (worker ⟨fun _ => some ⟨[[120], [121]], .eof⟩, .never, fun _ => none⟩).2.1.Nodup :=
  worker_sends_consecutive_labels ⟨fun _ => some ⟨[[120], [121]], .eof⟩, .never, fun _ => none⟩
    [.keepOpenCall 0] ⟨[[120], [121]], .eof⟩ example_connect

theorem tooLong_oversizedLine : tooLong oversizedLine = true := by
  simp [tooLong, oversizedLine]

/-- C7 fails as stated: for the body made of a line of `16 MiB + 1` bytes followed by the
line `x`, the scan loop sends nothing and the worker ends with the logged read error; the
line `x` does not produce the message `Change 1`. -/
theorem oversized_line_ends_scan_loop :
    tooLong oversizedLine = true ∧ tooLong [120] = false
    ∧ scanLoop .eof 0 [oversizedLine, [120]] = ([], Exit.failed)
    ∧ (scanLoop .eof 0 [oversizedLine, [120]]).1 ≠ [sprintfChange 1] := by
  have h := scanLoop_stops .eof oversizedLine [[120]] tooLong_oversizedLine [] 0 (by simp)
  simp only [List.nil_append] at h
  refine ⟨tooLong_oversizedLine, by decide, ?_, ?_⟩
  · rw [h]; rfl
  · rw [h]; simp [labelsFrom]

/-- C7, amended: a line the scanner rejects produces no message and ends the scan loop:
the lines before it produce `Change 1`, ..., `Change p`, no line after it produces a
message, and the worker returns after logging the read error. -/
theorem rejected_line_ends_worker (fin : ReadEnd) (pre post : List Line) (bad : Line)
    (hpre : ∀ l ∈ pre, tooLong l = false) (hbad : tooLong bad = true) :
    scanLoop fin 0 (pre ++ bad :: post)
      = ((List.range pre.length).map (fun j => sprintfChange (j + 1)), Exit.failed) := by
  rw [scanLoop_stops fin bad post hbad pre 0 hpre]
  simp [labelsFrom]

theorem rejected_line_ends_worker_witness :
    scanLoop .eof 0 ([[120]] ++ oversizedLine :: [[121]])
      = ((List.range [[120]].length).map (fun j => sprintfChange (j + 1)), Exit.failed) :=
  rejected_line_ends_worker .eof [[120]] [[121]] oversizedLine (by decide)
    tooLong_oversizedLine

/-! ## The connect/retry loop -/

theorem connectLoop_gaveUp (env : ConnectEnv) (tries : Nat) (h : 100 < tries) :
    connectLoop env tries = ([], Connected.gaveUp) := by
  rw [connectLoop]; simp [h]

theorem connectLoop_stream (env : ConnectEnv) (tries : Nat) (r : Body) (h : tries ≤ 100)
    (he : errNotNil env tries = false) (hk : env.keepOpen tries = some r) :
    connectLoop env tries
      = (Event.keepOpenCall tries :: cancelMark env.cancelAt (.duringAttempt tries),
         Connected.stream r) := by
  rw [connectLoop]
  have h2 : ¬ tries > 100 := by omega
  simp [h2, he, hk]

theorem connectLoop_nilBody (env : ConnectEnv) (tries : Nat) (h : tries ≤ 100)
    (he : errNotNil env tries = false) (hk : env.keepOpen tries = none) :
    connectLoop env tries
      = (Event.keepOpenCall tries :: cancelMark env.cancelAt (.duringAttempt tries),
         Connected.nilBody) := by
  rw [connectLoop]
  have h2 : ¬ tries > 100 := by omega
  simp [h2, he, hk]

/-- When the test `err != nil` fails the loop is left: the events are those of the call. -/
theorem connectLoop_break (env : ConnectEnv) (tries : Nat) (h : tries ≤ 100)
    (he : errNotNil env tries = false) :
    (connectLoop env tries).1
      = Event.keepOpenCall tries :: cancelMark env.cancelAt (.duringAttempt tries) := by
  cases hk : env.keepOpen tries with
  | some r => rw [connectLoop_stream env tries r h he hk]
  | none => rw [connectLoop_nilBody env tries h he hk]

theorem connectLoop_aborted (env : ConnectEnv) (tries : Nat) (h : tries ≤ 100)
    (he : errNotNil env tries = true) (hc : ctxErr env.cancelAt tries = true) :
    connectLoop env tries
      = (Event.keepOpenCall tries :: cancelMark env.cancelAt (.duringAttempt tries),
         Connected.aborted) := by
  rw [connectLoop]
  have h2 : ¬ tries > 100 := by omega
  simp [h2, he, hc]

theorem connectLoop_retry (env : ConnectEnv) (tries : Nat) (h : tries ≤ 100)
    (he : errNotNil env tries = true) (hc : ctxErr env.cancelAt tries = false) :
    connectLoop env tries
      = (Event.keepOpenCall tries :: (cancelMark env.cancelAt (.duringAttempt tries)
          ++ (Event.logged tries :: Event.slept ::
            (cancelMark env.cancelAt (.duringSleep tries)
              ++ (connectLoop env (tries + 1)).1))),
         (connectLoop env (tries + 1)).2) := by
  rw [connectLoop]
  have h2 : ¬ tries > 100 := by omega
  simp [h2, he, hc]

/-- A worker whose own calls all fail and that never reads a nil stored by another worker
finds `err != nil` at every test. -/
theorem errNotNil_of_fail (env : ConnectEnv) (hk : ∀ k, env.keepOpen k = none)
    (ho : ∀ k, env.otherErr k ≠ some false) (k : Nat) : errNotNil env k = true := by
  unfold errNotNil
  cases h : env.otherErr k with
  | none => simp [hk k]
  | some b =>
    cases b with
    | true => rfl
    | false => exact absurd h (ho k)

/-- With `err != nil` at every test and no cancellation, the loop entered with `tries`
makes `101 - tries` calls and gives up. -/
theorem connectLoop_all_fail (env : ConnectEnv) (he : ∀ k, errNotNil env k = true)
    (hc : env.cancelAt = CancelAt.never) : ∀ (d tries : Nat), tries + d = 101 →
    attempts (connectLoop env tries).1 = d ∧ (connectLoop env tries).2 = Connected.gaveUp := by
  intro d
  induction d with
  | zero =>
    intro tries h
    rw [connectLoop_gaveUp env tries (by omega)]
    exact ⟨rfl, rfl⟩
  | succ d ih =>
    intro tries h
    have hle : tries ≤ 100 := by omega
    rw [connectLoop_retry env tries hle (he tries) (by rw [hc]; rfl)]
    have := ih (tries + 1) (by omega)
    simp [hc, cancelMark, attempts, this]

theorem worker_all_fail (env : ConnectEnv) (he : ∀ k, errNotNil env k = true)
    (hc : env.cancelAt = CancelAt.never) :
    attempts (worker env).1 = 101 ∧ (worker env).2 = ([], Exit.gaveUp) := by
  have h := connectLoop_all_fail env he hc 101 0 rfl
  unfold worker
  cases hr : connectLoop env 0 with
  | mk evs res =>
    rw [hr] at h
    simp only at h
    obtain ⟨h1, h2⟩ := h
    subst h2
    exact ⟨h1, rfl⟩

/-- The path of the shared variable: a worker whose call fails, and whose test at
connect.go:66 reads the nil that another worker stored in `err`, leaves the loop with
`r == nil` after its first call and panics at `defer r.Close()`. -/
theorem nil_read_from_shared_err_panics :
    worker ⟨fun _ => none, CancelAt.never, fun k => if k = 0 then some false else none⟩
      = ([Event.keepOpenCall 0], [], Exit.panicked) := by
  unfold worker
  rw [connectLoop_nilBody
    ⟨fun _ => none, CancelAt.never, fun k => if k = 0 then some false else none⟩ 0
    (by omega) rfl rfl]
  simp [cancelMark]

/-- C5 fails as stated: a worker whose every connect attempt fails, with the context
never cancelled and no other worker writing `err`, makes 101 calls of `keepOpen`, not
100. -/
theorem failing_worker_makes_101_attempts :
    attempts (worker ⟨fun _ => none, CancelAt.never, fun _ => none⟩).1 = 101
    ∧ attempts (worker ⟨fun _ => none, CancelAt.never, fun _ => none⟩).1 ≠ 100 := by
  have h := (worker_all_fail ⟨fun _ => none, CancelAt.never, fun _ => none⟩
    (fun _ => rfl) rfl).1
  exact ⟨h, by rw [h]; decide⟩

/-- C5, amended: a worker whose every connect attempt fails while the context is never
cancelled, and whose test `err != nil` never reads a nil that another worker stored in
the shared variable `err`, makes exactly 101 calls of `keepOpen` (with `tries` from 0 to
100), then returns, and it has sent nothing on `received`. -/
theorem failing_worker_gives_up (env : ConnectEnv) (hk : ∀ k, env.keepOpen k = none)
    (ho : ∀ k, env.otherErr k ≠ some false) (hc : env.cancelAt = CancelAt.never) :
    attempts (worker env).1 = 101 ∧ (worker env).2.1 = [] ∧ (worker env).2.2 = Exit.gaveUp := by
  have h := worker_all_fail env (errNotNil_of_fail env hk ho) hc
  exact ⟨h.1, by rw [h.2], by rw [h.2]⟩

theorem failing_worker_gives_up_witness :
    attempts (worker ⟨fun _ => none, CancelAt.never, fun _ => some true⟩).1 = 101
    ∧ (worker ⟨fun _ => none, CancelAt.never, fun _ => some true⟩).2.1 = []
    ∧ (worker ⟨fun _ => none, CancelAt.never, fun _ => some true⟩).2.2 = Exit.gaveUp :=
  failing_worker_gives_up ⟨fun _ => none, CancelAt.never, fun _ => some true⟩
    (fun _ => rfl) (fun _ h => Bool.noConfusion (Option.some.inj h)) rfl

theorem attempts_after_sleep_cancel (env : ConnectEnv) (j tries : Nat)
    (hc : env.cancelAt = CancelAt.duringSleep j) (hj : j < tries) :
    attempts (connectLoop env tries).1 ≤ 1
    ∧ (tries ≤ 100 → attempts (connectLoop env tries).1 = 1) := by
  by_cases ht : 100 < tries
  · rw [connectLoop_gaveUp env tries ht]
    exact ⟨by simp [attempts], fun h => by omega⟩
  · have hle : tries ≤ 100 := by omega
    cases he : errNotNil env tries with
    | false =>
      rw [connectLoop_break env tries hle he]
      simp [hc, cancelMark, attempts]
    | true =>
      rw [connectLoop_aborted env tries hle he (by simp [hc, ctxErr, hj])]
      simp [hc, cancelMark, attempts]

theorem calls_sleep_cancel (env : ConnectEnv) (j : Nat)
    (hc : env.cancelAt = CancelAt.duringSleep j) : ∀ (d tries : Nat), tries + d = 101 →
    tries ≤ j →
    callsAfterCancel (connectLoop env tries).1 ≤ 1
    ∧ ((∀ i, i ≤ j → errNotNil env i = true) → j < 100 →
        callsAfterCancel (connectLoop env tries).1 = 1) := by
  intro d
  induction d with
  | zero =>
    intro tries h hj
    rw [connectLoop_gaveUp env tries (by omega)]
    exact ⟨by simp [callsAfterCancel], fun _ h100 => by omega⟩
  | succ d ih =>
    intro tries h hj
    have hle : tries ≤ 100 := by omega
    cases he : errNotNil env tries with
    | false =>
      rw [connectLoop_break env tries hle he]
      refine ⟨by simp [hc, cancelMark, callsAfterCancel], fun hall _ => ?_⟩
      rw [hall tries hj] at he
      exact absurd he (by simp)
    | true =>
      rw [connectLoop_retry env tries hle he (by simp [hc, ctxErr]; omega)]
      by_cases e : tries = j
      · subst e
        have hA := attempts_after_sleep_cancel env tries (tries + 1) hc (by omega)
        simp only [hc, cancelMark, callsAfterCancel, if_true, List.nil_append,
          List.cons_append, reduceCtorEq, if_false]
        exact ⟨hA.1, fun _ h100 => hA.2 (by omega)⟩
      · have hne : ¬ j = tries := fun x => e x.symm
        have hI := ih (tries + 1) (by omega) (by omega)
        simpa [hc, cancelMark, callsAfterCancel, hne] using hI

theorem calls_attempt_cancel (env : ConnectEnv) (j : Nat)
    (hc : env.cancelAt = CancelAt.duringAttempt j) : ∀ (d tries : Nat), tries + d = 101 →
    tries ≤ j → callsAfterCancel (connectLoop env tries).1 = 0 := by
  intro d
  induction d with
  | zero =>
    intro tries h hj
    rw [connectLoop_gaveUp env tries (by omega)]
    simp [callsAfterCancel]
  | succ d ih =>
    intro tries h hj
    have hle : tries ≤ 100 := by omega
    cases he : errNotNil env tries with
    | false =>
      rw [connectLoop_break env tries hle he]
      by_cases e : j = tries <;> simp [hc, cancelMark, callsAfterCancel, attempts, e]
    | true =>
      by_cases e : j = tries
      · rw [connectLoop_aborted env tries hle he (by simp [hc, ctxErr, e])]
        simp [hc, cancelMark, callsAfterCancel, attempts, e]
      · rw [connectLoop_retry env tries hle he (by simp [hc, ctxErr]; omega)]
        have hI := ih (tries + 1) (by omega) (by omega)
        simpa [hc, cancelMark, callsAfterCancel, e] using hI

theorem calls_never_cancel (env : ConnectEnv) (hc : env.cancelAt = CancelAt.never) :
    ∀ (d tries : Nat), tries + d = 101 → callsAfterCancel (connectLoop env tries).1 = 0 := by
  intro d
  induction d with
  | zero =>
    intro tries h
    rw [connectLoop_gaveUp env tries (by omega)]
    simp [callsAfterCancel]
  | succ d ih =>
    intro tries h
    have hle : tries ≤ 100 := by omega
    cases he : errNotNil env tries with
    | false =>
      rw [connectLoop_break env tries hle he]
      simp [hc, cancelMark, callsAfterCancel]
    | true =>
      rw [connectLoop_retry env tries hle he (by simp [hc, ctxErr])]
      have hI := ih (tries + 1) (by omega)
      simpa [hc, cancelMark, callsAfterCancel] using hI

/-- C6 fails as stated: when every attempt fails and the context is cancelled during the
wait after the first attempt, the worker starts the call of `keepOpen` with `tries = 1`
after the cancellation. -/
theorem call_starts_after_cancel_in_sleep :
    connectLoop ⟨fun _ => none, CancelAt.duringSleep 0, fun _ => none⟩ 0
      = ([.keepOpenCall 0, .logged 0, .slept, .cancelled, .keepOpenCall 1],
         Connected.aborted)
    ∧ callsAfterCancel
        (connectLoop ⟨fun _ => none, CancelAt.duringSleep 0, fun _ => none⟩ 0).1 = 1 := by
  have h : connectLoop ⟨fun _ => none, CancelAt.duringSleep 0, fun _ => none⟩ 0
      = ([.keepOpenCall 0, .logged 0, .slept, .cancelled, .keepOpenCall 1],
         Connected.aborted) := by
    rw [connectLoop_retry ⟨fun _ => none, CancelAt.duringSleep 0, fun _ => none⟩ 0
        (by omega) rfl rfl,
      connectLoop_aborted ⟨fun _ => none, CancelAt.duringSleep 0, fun _ => none⟩ (0 + 1)
        (by omega) rfl rfl]
    simp [cancelMark]
  exact ⟨h, by rw [h]; rfl⟩

/-- C6, amended: when the context is cancelled while a call of `keepOpen` is in flight,
no call of `keepOpen` starts after the cancellation; in every run at most one call starts
after it; and when it is cancelled during the wait after a failed attempt (with `tries`
below 100, the test `err != nil` having held at every attempt so far, which without a
write of another worker to `err` says that every attempt so far failed), exactly one call
starts after it. -/
theorem at_most_one_call_after_cancel (env : ConnectEnv) :
    callsAfterCancel (connectLoop env 0).1 ≤ 1
    ∧ (∀ j, env.cancelAt = CancelAt.duringAttempt j →
        callsAfterCancel (connectLoop env 0).1 = 0)
    ∧ (∀ j, env.cancelAt = CancelAt.duringSleep j → j < 100 →
        (∀ i, i ≤ j → errNotNil env i = true) →
        callsAfterCancel (connectLoop env 0).1 = 1)
    ∧ (∀ j, env.cancelAt = CancelAt.duringSleep j → j < 100 → env.otherErr = (fun _ => none) →
        (∀ i, i ≤ j → env.keepOpen i = none) →
        callsAfterCancel (connectLoop env 0).1 = 1) := by
  refine ⟨?_, ?_, ?_, ?_⟩
  · cases hc : env.cancelAt with
    | never => rw [calls_never_cancel env hc 101 0 rfl]; omega
    | duringAttempt j => rw [calls_attempt_cancel env j hc 101 0 rfl (by omega)]; omega
    | duringSleep j => exact (calls_sleep_cancel env j hc 101 0 rfl (by omega)).1
  · intro j hc
    exact calls_attempt_cancel env j hc 101 0 rfl (by omega)
  · intro j hc hj hall
    exact (calls_sleep_cancel env j hc 101 0 rfl (by omega)).2 hall hj
  · intro j hc hj ho hall
    refine (calls_sleep_cancel env j hc 101 0 rfl (by omega)).2 ?_ hj
    intro i hi
    simp [errNotNil, ho, hall i hi]

theorem at_most_one_call_after_cancel_witness :
    callsAfterCancel
        (connectLoop ⟨fun _ => none, CancelAt.duringAttempt 2, fun _ => none⟩ 0).1 = 0
    ∧ callsAfterCancel
        (connectLoop ⟨fun _ => none, CancelAt.duringSleep 2, fun _ => none⟩ 0).1 = 1
    ∧ callsAfterCancel
        (connectLoop ⟨fun _ => none, CancelAt.duringSleep 2, fun _ => none⟩ 0).1 = 1 :=
  ⟨(at_most_one_call_after_cancel
      ⟨fun _ => none, CancelAt.duringAttempt 2, fun _ => none⟩).2.1 2 rfl,
   (at_most_one_call_after_cancel
      ⟨fun _ => none, CancelAt.duringSleep 2, fun _ => none⟩).2.2.1 2 rfl
     (by decide) (fun _ _ => rfl),
   (at_most_one_call_after_cancel
      ⟨fun _ => none, CancelAt.duringSleep 2, fun _ => none⟩).2.2.2 2 rfl
     (by decide) rfl (fun _ _ => rfl)⟩

/-! ## The swarm: conservation of messages -/

theorem set_sum (f : Worker → Nat) (w w1 : Worker) : ∀ (ws : List Worker) (i : Nat),
    ws[i]? = some w → ((ws.set i w1).map f).sum + f w = (ws.map f).sum + f w1 := by
  intro ws
  induction ws with
  | nil => intro i h; simp at h
  | cons a as ih =>
    intro i h
    cases i with
    | zero =>
      simp at h
      subst h
      simp only [List.set_cons_zero, List.map_cons, List.sum_cons]
      omega
    | succ i =>
      simp at h
      have := ih i h
      simp only [List.set_cons_succ, List.map_cons, List.sum_cons]
      omega

theorem set_map_same {β : Type} (f : Worker → β) (w w1 : Worker) (hf : f w1 = f w) :
    ∀ (ws : List Worker) (i : Nat), ws[i]? = some w → (ws.set i w1).map f = ws.map f := by
  intro ws
  induction ws with
  | nil => intro i h; simp at h
  | cons a as ih =>
    intro i h
    cases i with
    | zero =>
      simp at h
      subst h
      simp [hf]
    | succ i =>
      simp at h
      simp [ih i h]

theorem set_self (w : Worker) : ∀ (ws : List Worker) (i : Nat),
    ws[i]? = some w → ws.set i w = ws := by
  intro ws i h
  have := set_map_same id w w rfl ws i h
  simpa using this

theorem emitted_succ (w : Worker) (msg : String) (c : Nat) (hc : c = w.changeID) :
    (labelsFrom 0 (c + 1)).count msg
      = emitted w msg + (if some (sprintfChange (c + 1)) = some msg then 1 else 0) := by
  subst hc
  unfold emitted labelsFrom
  rw [List.range_succ, List.map_append, List.count_append]
  simp [List.count_singleton]

/-- A step of a worker moves messages along without creating or losing any. -/
theorem worker_step_balance (w : Worker) (ch : Option String) (msg : String) :
    pendingCount (w.step ch).1 msg + chanCount (w.step ch).2 msg + emitted w msg
      = pendingCount w msg + chanCount ch msg + emitted (w.step ch).1 msg := by
  unfold Worker.step
  cases he : w.exit with
  | some e => simp
  | none =>
    cases hs : w.sending with
    | some m =>
      cases ch with
      | none => simp [pendingCount, chanCount, emitted, hs]
      | some c => simp
    | none =>
      cases hsc : scan w.lines with
      | none => simp [pendingCount, chanCount, emitted, hs]
      | some p =>
        simp only [pendingCount, hs, emitted, emitted_succ w msg w.changeID rfl]
        simp
        omega

theorem balanced_init (conns : List (Option Body)) : Balanced (Swarm.init conns) := by
  intro msg
  simp only [Swarm.init, count, lookupBar, List.find?, chanCount, List.map_map]
  induction conns with
  | nil => simp
  | cons c cs ih =>
    cases c <;>
      simpa [mkWorker, pendingCount, emitted, labelsFrom, Function.comp] using ih

theorem balanced_step (s : Swarm) (a : Action) (h : Balanced s) : Balanced (s.step a) := by
  intro msg
  have hm := h msg
  cases a with
  | worker i =>
    simp only [Swarm.step]
    cases hw : s.workers[i]? with
    | none => simpa using hm
    | some w =>
      simp only
      have h1 := set_sum (pendingCount · msg) w (w.step s.received).1 s.workers i hw
      have h2 := set_sum (emitted · msg) w (w.step s.received).1 s.workers i hw
      have h3 := worker_step_balance w s.received msg
      simp only at h1 h2
      omega
  | receive =>
    simp only [Swarm.step]
    split
    · exact hm
    · cases hr : s.received with
      | none => simpa [hr] using hm
      | some m =>
        simp only [count_aggregate]
        rw [hr] at hm
        simp only [chanCount] at hm ⊢
        by_cases e : m = msg
        · subst e; simp at hm ⊢; omega
        · have e2 : ¬ msg = m := fun x => e x.symm
          simp [e, e2] at hm ⊢; omega
  | done => simp only [Swarm.step]; split <;> exact hm
  | cancel => exact hm

theorem balanced_run (sched : List Action) : ∀ s : Swarm, Balanced s →
    Balanced (s.run sched) := by
  induction sched with
  | nil => intro s h; exact h
  | cons a as ih => intro s h; exact ih (s.step a) (balanced_step s a h)

theorem length_step (s : Swarm) (a : Action) : (s.step a).workers.length = s.workers.length := by
  cases a with
  | worker i =>
    simp only [Swarm.step]
    cases s.workers[i]? <;> simp
  | receive =>
    simp only [Swarm.step]
    split
    · rfl
    · cases s.received <;> rfl
  | done => simp only [Swarm.step]; split <;> rfl
  | cancel => rfl

theorem length_run (sched : List Action) : ∀ s : Swarm,
    (s.run sched).workers.length = s.workers.length := by
  induction sched with
  | nil => intro s; rfl
  | cons a as ih => intro s; exact (ih (s.step a)).trans (length_step s a)

theorem emitted_le_one (w : Worker) (msg : String) : emitted w msg ≤ 1 :=
  List.nodup_iff_count_le_one.mp (labelsFrom_nodup 0 w.changeID) msg

theorem sum_emitted_le (msg : String) (ws : List Worker) :
    (ws.map (emitted · msg)).sum ≤ ws.length := by
  induction ws with
  | nil => simp
  | cons w ws ih =>
    have := emitted_le_one w msg
    simp only [List.map_cons, List.sum_cons, List.length_cons]
    omega

/-- C1: for every number of workers, all bodies, every schedule of the workers and of the
aggregation loop, and every point of the run, the count of each label `Change k` is at
most the number of workers. -/
theorem count_le_connectionCount (conns : List (Option Body)) (sched : List Action)
    (k : Nat) :
    count ((Swarm.init conns).run sched).bars (sprintfChange k) ≤ conns.length := by
  have hb := balanced_run sched (Swarm.init conns) (balanced_init conns) (sprintfChange k)
  have hs := sum_emitted_le (sprintfChange k) ((Swarm.init conns).run sched).workers
  have hl : ((Swarm.init conns).run sched).workers.length = conns.length := by
    rw [length_run]; simp [Swarm.init]
  omega

/-! ## The swarm: the counts when everything is consumed -/

theorem hasRow_iff_mem (bars : List Bar) (msg : String) :
    hasRow bars msg = true ↔ msg ∈ bars.map Bar.name := by
  induction bars with
  | nil => simp [hasRow, lookupBar]
  | cons b bs ih =>
    unfold hasRow at ih ⊢
    rw [lookupBar_cons]
    by_cases h : b.name = msg
    · simp [h]
    · have h2 : ¬ msg = b.name := fun x => h x.symm
      simp [h, h2, ih]

theorem hasRow_aggregate (n : Nat) (bars : List Bar) (s t : String) :
    hasRow (aggregate n bars s) t = true ↔ (hasRow bars t = true ∨ t = s) := by
  rw [hasRow_iff_mem, names_aggregate]
  cases hr : hasRow bars s
  · simp [hasRow_iff_mem]
  · have hs := (hasRow_iff_mem bars s).mp hr
    simp only [if_true, List.append_nil, hasRow_iff_mem]
    constructor
    · intro h; exact Or.inl h
    · intro h
      cases h with
      | inl h => exact h
      | inr h => subst h; exact hs

theorem rowsCounted_step (s : Swarm) (a : Action) (h : RowsCounted s.bars) :
    RowsCounted (s.step a).bars := by
  cases a with
  | worker i =>
    simp only [Swarm.step]
    cases s.workers[i]? <;> exact h
  | receive =>
    simp only [Swarm.step]
    split
    · exact h
    · cases hr : s.received with
      | none => exact h
      | some m =>
        intro msg hm
        simp only at hm ⊢
        rw [count_aggregate]
        rcases (hasRow_aggregate _ _ _ _).mp hm with h1 | h1
        · have := h msg h1; omega
        · simp [h1]
  | done => simp only [Swarm.step]; split <;> exact h
  | cancel => exact h

theorem rowsCounted_run (sched : List Action) : ∀ s : Swarm, RowsCounted s.bars →
    RowsCounted (s.run sched).bars := by
  induction sched with
  | nil => intro s h; exact h
  | cons a as ih => intro s h; exact ih (s.step a) (rowsCounted_step s a h)

theorem tokens_of_scan (lines rest : List Line) (l : Line) (h : scan lines = some (l, rest)) :
    (tokens lines).length = (tokens rest).length + 1 := by
  cases lines with
  | nil => simp [scan] at h
  | cons x xs =>
    unfold scan at h
    cases hx : tooLong x
    · simp [hx] at h
      rw [tokens_cons, hx, ← h.2]; simp
    · simp [hx] at h

theorem tokens_of_scan_none (lines : List Line) (h : scan lines = none) :
    tokens lines = [] := by
  cases lines with
  | nil => rfl
  | cons x xs =>
    unfold scan at h
    cases hx : tooLong x
    · simp [hx] at h
    · rw [tokens_cons, hx]; rfl

theorem finalCount_step (w : Worker) (ch : Option String) :
    finalCount (w.step ch).1 = finalCount w := by
  unfold Worker.step
  cases he : w.exit with
  | some e => rfl
  | none =>
    cases hs : w.sending with
    | some m => cases ch <;> rfl
    | none =>
      cases hsc : scan w.lines with
      | none => rfl
      | some p =>
        obtain ⟨l, rest⟩ := p
        have := tokens_of_scan w.lines rest l hsc
        simp only [finalCount]
        omega

theorem settled_step (w : Worker) (ch : Option String) (h : settled w = true) :
    settled (w.step ch).1 = true := by
  unfold Worker.step
  cases he : w.exit with
  | some e => exact h
  | none =>
    cases hs : w.sending with
    | some m => cases ch <;> simp [settled, he]
    | none =>
      cases hsc : scan w.lines with
      | none => simp [settled, hs, tokens_of_scan_none w.lines hsc]
      | some p => simp [settled, he]

theorem finalCount_swarm_step (s : Swarm) (a : Action) :
    (s.step a).workers.map finalCount = s.workers.map finalCount := by
  cases a with
  | worker i =>
    simp only [Swarm.step]
    cases hw : s.workers[i]? with
    | none => rfl
    | some w => exact set_map_same finalCount w _ (finalCount_step w s.received) s.workers i hw
  | receive =>
    simp only [Swarm.step]
    split
    · rfl
    · cases s.received <;> rfl
  | done => simp only [Swarm.step]; split <;> rfl
  | cancel => rfl

theorem settled_swarm_step (s : Swarm) (a : Action) (h : ∀ w ∈ s.workers, settled w = true) :
    ∀ w ∈ (s.step a).workers, settled w = true := by
  cases a with
  | worker i =>
    simp only [Swarm.step]
    cases hw : s.workers[i]? with
    | none => exact h
    | some w =>
      intro x hx
      rcases List.mem_or_eq_of_mem_set hx with h1 | h1
      · exact h x h1
      · rw [h1]
        exact settled_step w s.received (h w (List.getElem?_mem hw))
  | receive =>
    simp only [Swarm.step]
    split
    · exact h
    · cases s.received <;> exact h
  | done => simp only [Swarm.step]; split <;> exact h
  | cancel => exact h

theorem progress_run (sched : List Action) : ∀ s : Swarm,
    (∀ w ∈ s.workers, settled w = true) →
    (s.run sched).workers.map finalCount = s.workers.map finalCount
    ∧ ∀ w ∈ (s.run sched).workers, settled w = true := by
  induction sched with
  | nil => intro s h; exact ⟨rfl, h⟩
  | cons a as ih =>
    intro s h
    have := ih (s.step a) (settled_swarm_step s a h)
    exact ⟨this.1.trans (finalCount_swarm_step s a), this.2⟩

theorem init_settled (conns : List (Option Body)) :
    ∀ w ∈ (Swarm.init conns).workers, settled w = true := by
  intro w hw
  simp only [Swarm.init, List.mem_map] at hw
  obtain ⟨c, _, rfl⟩ := hw
  cases c <;> simp [mkWorker, settled, tokens]

theorem init_finalCount (conns : List (Option Body)) :
    (Swarm.init conns).workers.map finalCount = conns.map lineCount := by
  simp only [Swarm.init, List.map_map]
  apply List.map_congr_left
  intro c _
  cases c <;> simp [mkWorker, finalCount, lineCount, tokens]

theorem count_labelsFrom (c k : Nat) : ∀ m : Nat,
    (labelsFrom c m).count (sprintfChange k) = if c + 1 ≤ k ∧ k ≤ c + m then 1 else 0 := by
  intro m
  induction m with
  | zero =>
    unfold labelsFrom
    simp only [List.range_zero, List.map_nil, List.count_nil]
    split_ifs with h
    · omega
    · rfl
  | succ m ih =>
    unfold labelsFrom at ih ⊢
    rw [List.range_succ, List.map_append, List.count_append, ih]
    simp only [List.map_cons, List.map_nil, List.count_singleton, beq_iff_eq]
    by_cases e : sprintfChange (c + m + 1) = sprintfChange k
    · have := sprintfChange_inj _ _ e
      rw [if_pos e]
      split_ifs <;> omega
    · have hne : ¬ c + m + 1 = k := fun x => e (by rw [x])
      rw [if_neg e]
      split_ifs <;> omega

theorem sum_indicator (k : Nat) (ms : List Nat) :
    (ms.map (fun m => (labelsFrom 0 m).count (sprintfChange k))).sum
      = (ms.filter (reaches k)).length := by
  induction ms with
  | nil => rfl
  | cons m ms ih =>
    rw [List.map_cons, List.sum_cons, ih, count_labelsFrom]
    by_cases h : 1 ≤ k ∧ k ≤ m
    · have h2 : 0 + 1 ≤ k ∧ k ≤ 0 + m := by omega
      have h3 : reaches k m = true := by simp [reaches, h]
      rw [if_pos h2, List.filter_cons_of_pos h3, List.length_cons]
      omega
    · have h2 : ¬ (0 + 1 ≤ k ∧ k ≤ 0 + m) := by omega
      have h3 : ¬ reaches k m = true := by
        simp only [reaches, Bool.and_eq_true, decide_eq_true_eq]; exact h
      rw [if_neg h2, List.filter_cons_of_neg h3]
      omega

/-- In a drained state the count of a label is the number of workers that produced it. -/
theorem drained_count (conns : List (Option Body)) (sched : List Action)
    (h : ((Swarm.init conns).run sched).drained = true) (k : Nat) :
    count ((Swarm.init conns).run sched).bars (sprintfChange k)
      = ((conns.map lineCount).filter (reaches k)).length := by
  have hb := balanced_run sched (Swarm.init conns) (balanced_init conns) (sprintfChange k)
  have hp := progress_run sched (Swarm.init conns) (init_settled conns)
  rw [init_finalCount] at hp
  generalize (Swarm.init conns).run sched = s at h hb hp
  simp only [Swarm.drained, Bool.and_eq_true, List.all_eq_true] at h
  obtain ⟨hex, hrc⟩ := h
  have hw : ∀ w ∈ s.workers, w.sending = none ∧ finalCount w = w.changeID := by
    intro w hw
    have h1 := hex w hw
    have h2 := hp.2 w hw
    cases he : w.exit with
    | none => simp [he] at h1
    | some e =>
      simp only [settled, he, Option.isNone_some, Bool.false_or, Bool.and_eq_true,
        Option.isNone_iff_eq_none, List.isEmpty_iff] at h2
      exact ⟨h2.1, by simp [finalCount, h2.2]⟩
  have hpend : (s.workers.map (pendingCount · (sprintfChange k))).sum = 0 := by
    have : s.workers.map (pendingCount · (sprintfChange k)) = s.workers.map (fun _ => 0) := by
      apply List.map_congr_left
      intro w hw'
      simp [pendingCount, (hw w hw').1]
    rw [this]; simp
  have hemit : s.workers.map (emitted · (sprintfChange k))
      = (s.workers.map finalCount).map (fun m => (labelsFrom 0 m).count (sprintfChange k)) := by
    rw [List.map_map]
    apply List.map_congr_left
    intro w hw'
    simp [emitted, (hw w hw').2]
  have hch : chanCount s.received (sprintfChange k) = 0 := by
    cases hr : s.received with
    | none => simp [chanCount]
    | some m => simp [hr] at hrc
  rw [hemit, hp.1, sum_indicator] at hb
  omega

theorem filter_lineCount (k : Nat) (hk : 1 ≤ k) (conns : List (Option Body)) :
    ((conns.map lineCount).filter (reaches k)).length
      = (conns.filter (fun c => decide (k ≤ lineCount c))).length := by
  induction conns with
  | nil => rfl
  | cons c cs ih =>
    rw [List.map_cons]
    by_cases h : k ≤ lineCount c
    · have h3 : reaches k (lineCount c) = true := by simp [reaches, h, hk]
      rw [List.filter_cons_of_pos h3]
      simp [List.filter_cons, h, ih]
    · have h3 : ¬ reaches k (lineCount c) = true := by simp [reaches, h]
      rw [List.filter_cons_of_neg h3]
      simp [List.filter_cons, h, ih]

theorem mem_filter_reaches (k : Nat) (conns : List (Option Body)) :
    0 < ((conns.map lineCount).filter (reaches k)).length
      ↔ (1 ≤ k ∧ ∃ c ∈ conns, k ≤ lineCount c) := by
  constructor
  · intro h
    obtain ⟨m, hm⟩ := List.exists_mem_of_ne_nil _ (List.length_pos.mp h)
    simp only [List.mem_filter, List.mem_map, reaches, Bool.and_eq_true,
      decide_eq_true_eq] at hm
    obtain ⟨⟨c, hc, rfl⟩, h1, h2⟩ := hm
    exact ⟨h1, c, hc, h2⟩
  · rintro ⟨h1, c, hc, h2⟩
    apply List.length_pos_of_mem (a := lineCount c)
    simp only [List.mem_filter, List.mem_map, reaches, Bool.and_eq_true, decide_eq_true_eq]
    exact ⟨⟨c, hc, rfl⟩, h1, h2⟩

/-- C3: when the aggregation loop has consumed everything the workers sent (all workers
have returned, the channel is empty), the count of `Change k`, for a step `k ≥ 1`, is the
number of workers that received at least `k` lines, and `Change k` has a row exactly when
some worker received at least `k` lines; a step beyond every line count has no row. -/
theorem final_counts (conns : List (Option Body)) (sched : List Action)
    (h : ((Swarm.init conns).run sched).drained = true) :
    (∀ k : Nat, 1 ≤ k →
      count ((Swarm.init conns).run sched).bars (sprintfChange k)
        = (conns.filter (fun c => decide (k ≤ lineCount c))).length)
    ∧ (∀ k : Nat, hasRow ((Swarm.init conns).run sched).bars (sprintfChange k) = true
        ↔ (1 ≤ k ∧ ∃ c ∈ conns, k ≤ lineCount c))
    ∧ (∀ k : Nat, (∀ c ∈ conns, lineCount c < k) →
        hasRow ((Swarm.init conns).run sched).bars (sprintfChange k) = false) := by
  have hc := drained_count conns sched h
  have hrows : RowsCounted ((Swarm.init conns).run sched).bars :=
    rowsCounted_run sched (Swarm.init conns) (by intro m hm; simp [Swarm.init, hasRow, lookupBar] at hm)
  have hiff : ∀ k : Nat, hasRow ((Swarm.init conns).run sched).bars (sprintfChange k) = true
        ↔ (1 ≤ k ∧ ∃ c ∈ conns, k ≤ lineCount c) := by
    intro k
    rw [← mem_filter_reaches, ← hc k]
    constructor
    · intro hr
      exact hrows _ hr
    · intro h1
      unfold count at h1
      unfold hasRow
      cases hl : lookupBar ((Swarm.init conns).run sched).bars (sprintfChange k) with
      | none => simp [hl] at h1
      | some b => rfl
  refine ⟨fun k hk => by rw [hc k, filter_lineCount k hk], hiff, ?_⟩
  intro k hlt
  cases hr : hasRow ((Swarm.init conns).run sched).bars (sprintfChange k) with
  | false => rfl
  | true =>
    obtain ⟨_, c, hcm, hk2⟩ := (hiff k).mp hr
    have := hlt c hcm
    omega

theorem final_counts_witness :
    (((Swarm.init scenarioA).run scheduleA).drained = true
      ∧ count ((Swarm.init scenarioA).run scheduleA).bars (sprintfChange 1) = 3
      ∧ count ((Swarm.init scenarioA).run scheduleA).bars (sprintfChange 2) = 3
      ∧ hasRow ((Swarm.init scenarioA).run scheduleA).bars (sprintfChange 3) = false
      ∧ ((Swarm.init scenarioA).run scheduleA).bars
          = [⟨"Change 1", 3, 3⟩, ⟨"Change 2", 3, 3⟩])
    ∧ (((Swarm.init scenarioC).run scheduleC).drained = true
      ∧ count ((Swarm.init scenarioC).run scheduleC).bars (sprintfChange 1) = 3
      ∧ count ((Swarm.init scenarioC).run scheduleC).bars (sprintfChange 2) = 2
      ∧ count ((Swarm.init scenarioC).run scheduleC).bars (sprintfChange 3) = 2
      ∧ hasRow ((Swarm.init scenarioC).run scheduleC).bars (sprintfChange 4) = false
      ∧ ((Swarm.init scenarioC).run scheduleC).bars
          = [⟨"Change 1", 3, 3⟩, ⟨"Change 2", 3, 2⟩, ⟨"Change 3", 3, 2⟩]) :=
  ⟨⟨by decide,
    ((final_counts scenarioA scheduleA (by decide)).1 1 (by decide)).trans (by decide),
    ((final_counts scenarioA scheduleA (by decide)).1 2 (by decide)).trans (by decide),
    (final_counts scenarioA scheduleA (by decide)).2.2 3 (by decide),
    by decide⟩,
   ⟨by decide,
    ((final_counts scenarioC scheduleC (by decide)).1 1 (by decide)).trans (by decide),
    ((final_counts scenarioC scheduleC (by decide)).1 2 (by decide)).trans (by decide),
    ((final_counts scenarioC scheduleC (by decide)).1 3 (by decide)).trans (by decide),
    (final_counts scenarioC scheduleC (by decide)).2.2 4 (by decide),
    by decide⟩⟩

/-! ## The swarm: when the aggregation loop returns -/

theorem no_return_step (s : Swarm) (a : Action) (ha : a ≠ Action.cancel)
    (hd : s.ctxDone = false) (hr : s.returned = false) :
    (s.step a).ctxDone = false ∧ (s.step a).returned = false := by
  cases a with
  | worker i =>
    simp only [Swarm.step]
    cases s.workers[i]? <;> exact ⟨hd, hr⟩
  | receive =>
    simp only [Swarm.step, hr]
    cases s.received with
    | none => exact ⟨hd, hr⟩
    | some m => exact ⟨hd, rfl⟩
  | done => simp only [Swarm.step, hd]; exact ⟨hd, hr⟩
  | cancel => exact absurd rfl ha

theorem no_return_run (sched : List Action) : ∀ s : Swarm, noCancel sched = true →
    s.ctxDone = false → s.returned = false →
    (s.run sched).ctxDone = false ∧ (s.run sched).returned = false := by
  induction sched with
  | nil => intro s _ hd hr; exact ⟨hd, hr⟩
  | cons a as ih =>
    intro s hn hd hr
    simp only [noCancel, List.all_cons, Bool.and_eq_true, decide_eq_true_eq] at hn
    have h1 := no_return_step s a hn.1 hd hr
    exact ih (s.step a) (by simpa [noCancel] using hn.2) h1.1 h1.2

theorem drained_stuck (s : Swarm) (a : Action) (ha : a ≠ Action.cancel)
    (hd : s.ctxDone = false) (h : s.drained = true) : s.step a = s := by
  simp only [Swarm.drained, Bool.and_eq_true, List.all_eq_true] at h
  obtain ⟨hex, hrc⟩ := h
  cases a with
  | worker i =>
    simp only [Swarm.step]
    cases hw : s.workers[i]? with
    | none => rfl
    | some w =>
      have h1 := hex w (List.getElem?_mem hw)
      have h2 : w.step s.received = (w, s.received) := by
        unfold Worker.step
        cases he : w.exit with
        | none => simp [he] at h1
        | some e => rfl
      simp only [h2, set_self w s.workers i hw]
  | receive =>
    simp only [Swarm.step]
    split
    · rfl
    · cases hr : s.received with
      | none => rfl
      | some m => simp [hr] at hrc
  | done => simp only [Swarm.step, hd]; rfl
  | cancel => exact absurd rfl ha

theorem run_append (s : Swarm) (a b : List Action) : s.run (a ++ b) = (s.run a).run b := by
  simp [Swarm.run, List.foldl_append]

/-- C9 fails as stated: with one worker whose body is the single line `x`, after the run
in which the worker sends `Change 1`, the aggregation loop takes it and the worker
returns at the end of its stream, all workers have ended and every message is consumed;
yet however the run is continued without cancellation, the aggregation loop has not
returned, and no action changes the state any more. -/
theorem aggregation_loop_blocks_when_drained :
    noCancel [.worker 0, .worker 0, .receive, .worker 0] = true
    ∧ ((Swarm.init [some ⟨[[120]], .eof⟩]).run
        [.worker 0, .worker 0, .receive, .worker 0]).drained = true
    ∧ ∀ more : List Action, noCancel more = true →
        ((Swarm.init [some ⟨[[120]], .eof⟩]).run
          ([.worker 0, .worker 0, .receive, .worker 0] ++ more)).returned = false := by
  refine ⟨by decide, by decide, ?_⟩
  intro more hm
  rw [run_append]
  exact (no_return_run more _ hm (by decide) (by decide)).2

/-- C9, amended: the aggregation loop returns only through the case `<-ctx.Done()`. In a
run without cancellation it never returns; once all workers have ended and every message
is consumed it stays blocked in the `select` (no action changes the state); after the
context is cancelled, taking the case `<-ctx.Done()` makes it return. -/
theorem aggregation_loop_returns_only_on_cancel (conns : List (Option Body))
    (sched : List Action) (h : noCancel sched = true) :
    ((Swarm.init conns).run sched).returned = false
    ∧ (((Swarm.init conns).run sched).drained = true →
        ∀ a : Action, a ≠ Action.cancel →
          ((Swarm.init conns).run sched).step a = (Swarm.init conns).run sched)
    ∧ ((((Swarm.init conns).run sched).step Action.cancel).step Action.done).returned
        = true := by
  have hn := no_return_run sched (Swarm.init conns) h rfl rfl
  refine ⟨hn.2, ?_, ?_⟩
  · intro hd a ha
    exact drained_stuck _ a ha hn.1 hd
  · simp [Swarm.step]

theorem aggregation_loop_returns_only_on_cancel_witness :
    noCancel scheduleA = true
    ∧ ((Swarm.init scenarioA).run scheduleA).returned = false
    ∧ ((((Swarm.init scenarioA).run scheduleA).step Action.cancel).step
        Action.done).returned = true :=
  ⟨by decide,
   (aggregation_loop_returns_only_on_cancel scenarioA scheduleA (by decide)).1,
   (aggregation_loop_returns_only_on_cancel scenarioA scheduleA (by decide)).2.2⟩

end Connect

/-! ## The HTTP client helpers -/

namespace Client

theorem data_within_middle (a b c : String) : b.data <:+: (a ++ b ++ c).data :=
  ⟨a.data, c.data, by simp [String.data_append]⟩

theorem data_within_end (a b : String) : b.data <:+: (a ++ b).data :=
  ⟨a.data, [], by simp [String.data_append]⟩

/-- C8: `checkStatus` returns the response it was given, with no error, exactly when the
transport error is nil and the status code lies in 200..299, and it never returns any
other response; a non-nil transport error is returned as it is, with no response; for a
nil transport error and a status code outside 200..299 it returns no response and the
error `got status <Status>: <body>`, whose text contains the status line and the body,
or `[can not read body]` when the body cannot be read. -/
theorem checkStatus_cases (resp : Option Response) (err : Option GoError) :
    ((∃ r, resp = some r ∧ checkStatus resp err = Outcome.ret (some r, none))
        ↔ (err = none ∧ ∃ r, resp = some r ∧ 200 ≤ r.statusCode ∧ r.statusCode ≤ 299))
    ∧ (∀ r e, checkStatus resp err = Outcome.ret (some r, e) → resp = some r ∧ e = none)
    ∧ (∀ e, err = some e → checkStatus resp err = Outcome.ret (none, some e))
    ∧ (∀ r, resp = some r → err = none → (r.statusCode < 200 ∨ 299 < r.statusCode) →
        checkStatus resp err
            = Outcome.ret (none, some ⟨"got status " ++ r.status ++ ": " ++ bodyText r⟩)
          ∧ r.status.data <:+: ("got status " ++ r.status ++ ": " ++ bodyText r).data
          ∧ (bodyText r).data <:+: ("got status " ++ r.status ++ ": " ++ bodyText r).data
          ∧ (r.body = none → bodyText r = "[can not read body]")
          ∧ (∀ b, r.body = some b → bodyText r = b)) := by
  refine ⟨?_, ?_, ?_, ?_⟩
  · constructor
    · rintro ⟨r, rfl, h⟩
      cases err with
      | some e => simp [checkStatus] at h
      | none =>
        refine ⟨rfl, r, rfl, ?_⟩
        by_cases hs : r.statusCode < 200 ∨ r.statusCode > 299
        · simp [checkStatus, hs] at h
        · omega
    · rintro ⟨rfl, r, rfl, h1, h2⟩
      have hs : ¬ (r.statusCode < 200 ∨ r.statusCode > 299) := by omega
      exact ⟨r, rfl, by simp [checkStatus, hs]⟩
  · intro r e h
    cases err with
    | some e0 => simp [checkStatus] at h
    | none =>
      cases resp with
      | none => simp [checkStatus] at h
      | some r0 =>
        by_cases hs : r0.statusCode < 200 ∨ r0.statusCode > 299
        · simp [checkStatus, hs] at h
        · simp [checkStatus, hs] at h
          exact ⟨by rw [h.1], h.2.symm⟩
  · rintro e rfl
    rfl
  · rintro r rfl rfl hs
    have hs2 : r.statusCode < 200 ∨ r.statusCode > 299 := by omega
    refine ⟨by simp [checkStatus, hs2], ?_, ?_, ?_, ?_⟩
    · exact data_within_middle "got status " r.status (": " ++ bodyText r) |> fun h => by
        simpa [String.append_assoc] using h
    · have h := data_within_end ("got status " ++ r.status ++ ": ") (bodyText r)
      exact h
    · intro hb; simp [bodyText, hb]
    · intro b hb; simp [bodyText, hb]

theorem checkStatus_cases_witness :
    (checkStatus (some ⟨"404 Not Found", 404, some "missing"⟩) none
        = Outcome.ret (none, some ⟨"got status 404 Not Found: missing"⟩))
    ∧ (checkStatus (some ⟨"200 OK", 200, some ""⟩) (some ⟨"dial tcp: timeout"⟩)
        = Outcome.ret (none, some ⟨"dial tcp: timeout"⟩))
    ∧ (∃ r, some (Response.mk "200 OK" 200 (some "")) = some r
        ∧ checkStatus (some ⟨"200 OK", 200, some ""⟩) none = Outcome.ret (some r, none)) :=
  ⟨((checkStatus_cases (some ⟨"404 Not Found", 404, some "missing"⟩) none).2.2.2
      ⟨"404 Not Found", 404, some "missing"⟩ rfl rfl (by decide)).1,
   (checkStatus_cases (some ⟨"200 OK", 200, some ""⟩) (some ⟨"dial tcp: timeout"⟩)).2.2.1
      ⟨"dial tcp: timeout"⟩ rfl,
   (checkStatus_cases (some ⟨"200 OK", 200, some ""⟩) none).1.mpr
      ⟨rfl, ⟨"200 OK", 200, some ""⟩, rfl, by decide, by decide⟩⟩

theorem splitOn_length (sep : Char) (cs : List Char) :
    (splitOn sep cs).length = cs.count sep + 1 := by
  induction cs with
  | nil => rfl
  | cons c cs ih =>
    unfold splitOn
    by_cases h : c = sep
    · subst h; simp [ih]
    · have h2 : ¬ (c == sep) = true := by simpa using h
      rw [if_neg h, List.count_cons, if_neg h2]
      cases hs : splitOn sep cs with
      | nil => rw [hs] at ih; simp at ih
      | cons p ps => rw [hs] at ih; simpa using ih

theorem index_one_in_range (token : String) :
    (stringsSplit token)[1]?.isSome = true ↔ '.' ∈ token.data := by
  have hl : (stringsSplit token).length = token.data.count '.' + 1 := by
    simp [stringsSplit, splitOn_length]
  rw [← List.count_pos_iff]
  cases h : (stringsSplit token)[1]? with
  | none =>
    have := List.getElem?_eq_none_iff.mp h
    simp only [Option.isSome_none, Bool.false_eq_true, false_iff]
    omega
  | some p =>
    have := (List.getElem?_eq_some.mp h).1
    simp only [Option.isSome_some, true_iff]
    omega

/-- C10: the index expression `parts[1]` of `decodeUserID` is in range exactly when the
token contains a `.`; for a token with a `.` the function returns, with a user id and no
error or with 0 and an error value; for a token without a `.`, among them the empty token
that `Login` passes when the response has no `authentication` header, it panics with the
index out of range and returns no error value. -/
theorem decodeUserID_index (decodeString : String → Except GoError (List UInt8))
    (unmarshal : List UInt8 → Except GoError Int) (token : String) :
    ((stringsSplit token)[1]?.isSome = true ↔ '.' ∈ token.data)
    ∧ ('.' ∈ token.data →
        (∃ id, decodeUserID decodeString unmarshal token = Outcome.ret (id, none))
        ∨ (∃ e, decodeUserID decodeString unmarshal token = Outcome.ret (0, some e)))
    ∧ ('.' ∉ token.data → decodeUserID decodeString unmarshal token = Outcome.panic)
    ∧ decodeUserID decodeString unmarshal "" = Outcome.panic
    ∧ loginDecode decodeString unmarshal none = Outcome.panic := by
  have hi := index_one_in_range token
  have hempty : decodeUserID decodeString unmarshal "" = Outcome.panic := by
    simp [decodeUserID, stringsSplit, splitOn]
  refine ⟨hi, ?_, ?_, hempty, ?_⟩
  · intro hdot
    have h1 := hi.mpr hdot
    cases hp : (stringsSplit token)[1]? with
    | none => simp [hp] at h1
    | some part =>
      cases hd : decodeString part with
      | error e =>
        exact Or.inr ⟨DecodeError.jwtToken part e, by simp [decodeUserID, hp, hd]⟩
      | ok encoded =>
        cases hu : unmarshal encoded with
        | error e =>
          exact Or.inr ⟨DecodeError.userID e, by simp [decodeUserID, hp, hd, hu]⟩
        | ok id => exact Or.inl ⟨id, by simp [decodeUserID, hp, hd, hu]⟩
  · intro hdot
    cases hp : (stringsSplit token)[1]? with
    | none => simp [decodeUserID, hp]
    | some part =>
      have : (stringsSplit token)[1]?.isSome = true := by simp [hp]
      exact absurd (hi.mp this) hdot
  · simp [loginDecode, headerGet, hempty]

theorem decodeUserID_index_witness :
    ('.' ∈ "a.b.c".data ∧ '.' ∉ "abc".data)
    ∧ ((∃ id, decodeUserID (fun _ => .ok []) (fun _ => .ok 7) "a.b.c" = Outcome.ret (id, none))
        ∨ (∃ e, decodeUserID (fun _ => .ok []) (fun _ => .ok 7) "a.b.c"
            = Outcome.ret (0, some e)))
    ∧ decodeUserID (fun _ => .ok []) (fun _ => .ok 7) "abc" = Outcome.panic :=
  ⟨⟨by decide, by decide⟩,
   (decodeUserID_index (fun _ => .ok []) (fun _ => .ok 7) "a.b.c").2.1 (by decide),
   (decodeUserID_index (fun _ => .ok []) (fun _ => .ok 7) "abc").2.2.1 (by decide)⟩

end Client
